import Mathlib

/-!
# Verification of the extractive-summarisation core

Shallow embedding of `summarizeText` and the request-validation logic of the
`POST` handler in `src/app/api/summarise/route.ts`.  Strings are modelled as
`List Char`; every definition mirrors one expression of the source.

Modelling decisions, each noted at its definition:
* `isWs` models the JavaScript `\s` character class (the set used both by
  `split(/\s+/)` and by `String.prototype.trim`).
* `jsLower` models `toLowerCase` on the alphabet that survives the subsequent
  `replace(/[^a-zA-Z\s]/g, '')`; the handful of non-ASCII code points that
  JavaScript lowercases into ASCII are deleted by that replace in all but
  exotic cases and are not modelled.
* The `stopword` package's `removeStopwords(tokens)` filters out tokens whose
  lowercasing is in a fixed English list.  That list is third-party
  configuration, not part of the repository source, and the spec directs that
  it be treated as injected configuration; all theorems are therefore
  parameterised over the stopword list `sw`.
* The frequency table `freq` is a plain object used with `freq[w] || 0`
  lookups; it is modelled extensionally as the multiset count of `w` among the
  stopword-filtered tokens of the whole document.
* `Array.prototype.sort` is stable (ECMAScript 2019) and the comparator
  `(a, b) => b.score - a.score` is a total preorder on scores, so the sorted
  result is the unique stable descending reordering; it is modelled by
  `List.insertionSort` over the score-descending relation, which performs
  exactly that stable reordering.
-/

namespace Summariser

/-- The sentence-terminator class `[.!?\n]` of the segmentation regex. -/
def isTerm (c : Char) : Bool := c = '.' || c = '!' || c = '?' || c = '\n'

/-- The letter class `[a-zA-Z]` kept by `replace(/[^a-zA-Z\s]/g, '')`. -/
def isLetter (c : Char) : Bool :=
  ('a' ≤ c && c ≤ 'z') || ('A' ≤ c && c ≤ 'Z')

/-- The JavaScript `\s` class: ASCII whitespace, NBSP, BOM, the Unicode
space separators and the line separators. -/
def jsWhitespace : List Char :=
  [' ', '\t', '\n', '\x0b', '\x0c', '\r',
   Char.ofNat 0xa0, Char.ofNat 0x1680,
   Char.ofNat 0x2000, Char.ofNat 0x2001, Char.ofNat 0x2002, Char.ofNat 0x2003,
   Char.ofNat 0x2004, Char.ofNat 0x2005, Char.ofNat 0x2006, Char.ofNat 0x2007,
   Char.ofNat 0x2008, Char.ofNat 0x2009, Char.ofNat 0x200a,
   Char.ofNat 0x2028, Char.ofNat 0x2029, Char.ofNat 0x202f,
   Char.ofNat 0x205f, Char.ofNat 0x3000, Char.ofNat 0xfeff]

/-- Whitespace test used by `split(/\s+/)` and by `trim()`. -/
def isWs (c : Char) : Bool := jsWhitespace.contains c

/-- ASCII lowering, the fragment of `toLowerCase` relevant after the
non-letter strip. -/
def jsLower (c : Char) : Char :=
  if 'A' ≤ c && c ≤ 'Z' then Char.ofNat (c.toNat + 32) else c

/-- `text.toLowerCase()`. -/
def lowerStr (s : List Char) : List Char := s.map jsLower

/-- `replace(/[^a-zA-Z\s]/g, '')`: every character that is neither a Latin
letter nor whitespace is deleted (not replaced by a separator). -/
def stripNonLetters (s : List Char) : List Char :=
  s.filter (fun c => isLetter c || isWs c)

/-- Scanner for `split(/\s+/)`.  `inWs` records whether the previous character
belonged to a whitespace run (so the run is skipped rather than producing more
separators); `acc` holds the current piece in reverse.  JavaScript `split`
keeps the empty pieces produced by a leading or trailing separator match, and
`"".split(/\s+/)` is `[""]`. -/
def splitWsAux (inWs : Bool) (acc : List Char) : List Char → List (List Char)
  | [] => [acc.reverse]
  | c :: rest =>
    if isWs c then
      if inWs then splitWsAux true acc rest
      else acc.reverse :: splitWsAux true [] rest
    else splitWsAux false (c :: acc) rest

/-- `text.split(/\s+/)`. -/
def splitWs (s : List Char) : List (List Char) := splitWsAux false [] s

/-- The `stopword` package's `removeStopwords`: keep the tokens whose
lowercasing is not in the stopword list. -/
def removeStopwords (sw : List (List Char)) (tokens : List (List Char)) :
    List (List Char) :=
  tokens.filter (fun t => decide (lowerStr t ∉ sw))

/-- `s.toLowerCase().replace(/[^a-zA-Z\s]/g, '').split(/\s+/)` — the token
list before stopword removal. -/
def tokensOf (s : List Char) : List (List Char) :=
  splitWs (stripNonLetters (lowerStr s))

/-- `allWords`: the stopword-filtered token list of the whole document. -/
def allWordsOf (sw : List (List Char)) (text : List Char) : List (List Char) :=
  removeStopwords sw (tokensOf text)

/-- The frequency-table lookup `freq[w] || 0`: the table is built by one
increment per occurrence in `allWords`, so the lookup is the occurrence
count. -/
def freqOf (sw : List (List Char)) (text : List Char) (w : List Char) : Nat :=
  (allWordsOf sw text).count w

/-- The per-sentence token list `words` (same pipeline, applied to the raw,
untrimmed sentence). -/
def wordsOf (sw : List (List Char)) (s : List Char) : List (List Char) :=
  removeStopwords sw (tokensOf s)

/-- `words.reduce((sum, w) => sum + (freq[w] || 0), 0)`. -/
def scoreOf (sw : List (List Char)) (text : List Char) (s : List Char) : Nat :=
  (wordsOf sw s).foldl (fun a w => a + freqOf sw text w) 0

/-- Explicit scan equivalent to the global regex match
`text.match(/[^.!?\n]+[.!?\n]+/g)`.  A match is a maximal nonempty run of
non-terminators followed by a maximal nonempty run of terminators.  `acc`
holds the match in progress (reversed); `phase` records that the last consumed
character was a terminator extending a nonempty `acc`, so a following
non-terminator (or the end of input) completes the match.  A terminator seen
while `acc` is empty cannot start a match and is skipped, and a trailing run
of non-terminators never completes a match and is dropped. -/
def segAux (phase : Bool) (acc : List Char) : List Char → List (List Char)
  | [] => if phase then [acc.reverse] else []
  | c :: rest =>
    if isTerm c then
      if acc.isEmpty then segAux false [] rest
      else segAux true (c :: acc) rest
    else
      if phase then acc.reverse :: segAux false [c] rest
      else segAux false (c :: acc) rest

/-- The full match list of `text.match(/[^.!?\n]+[.!?\n]+/g)` (empty when the
match is `null`). -/
def segMatches (text : List Char) : List (List Char) := segAux false [] text

/-- `text.match(/[^.!?\n]+[.!?\n]+/g) || [text]`: `match` yields `null`
exactly when there is no match, and the code then falls back to the whole
document as a single sentence. -/
def sentences (text : List Char) : List (List Char) :=
  if (segMatches text).isEmpty then [text] else segMatches text

/-- `String.prototype.trim`. -/
def trim (s : List Char) : List Char :=
  ((s.dropWhile isWs).reverse.dropWhile isWs).reverse

/-- `sentences.map((s) => ({ sentence: s.trim(), score }))`, as
(sentence, score) pairs. -/
def scoredOf (sw : List (List Char)) (text : List Char) :
    List (List Char × Nat) :=
  (sentences text).map (fun s => (trim s, scoreOf sw text s))

/-- Score-descending relation of the comparator `(a, b) => b.score - a.score`:
`a` may come before `b` exactly when `b`'s score is at most `a`'s. -/
def ScoreGe (a b : List Char × Nat) : Prop := b.2 ≤ a.2

instance : DecidableRel ScoreGe :=
  fun a b => inferInstanceAs (Decidable (b.2 ≤ a.2))

instance : IsTotal (List Char × Nat) ScoreGe :=
  ⟨fun a b => Nat.le_total b.2 a.2⟩

instance : IsTrans (List Char × Nat) ScoreGe :=
  ⟨fun _ _ _ h1 h2 => Nat.le_trans h2 h1⟩

/-- `scored.sort((a, b) => b.score - a.score)`: the unique stable descending
reordering, realised by stable insertion sort. -/
def sortScored (l : List (List Char × Nat)) : List (List Char × Nat) :=
  List.insertionSort ScoreGe l

/-- The sorted (sentence, score) list. -/
def rankedOf (sw : List (List Char)) (text : List Char) :
    List (List Char × Nat) :=
  sortScored (scoredOf sw text)

/-- `.slice(0, topN).map((s) => s.sentence)`. -/
def topOf (sw : List (List Char)) (text : List Char) (topN : Nat) :
    List (List Char) :=
  ((rankedOf sw text).take topN).map Prod.fst

/-- `summarizeText(text, topN = 3)`: the caller in `POST` uses the default
`topN = 3`.  The body of the source's `try` block cannot throw, so the
function is a total string transformer. -/
def summarizeText (sw : List (List Char)) (text : List Char) (topN : Nat) :
    List Char :=
  List.intercalate [' '] (topOf sw text topN)

/-- The two failure responses of the `POST` handler relevant to a raw-text
request: the 400 bad-input response for short text and the 500
"Could not generate summary" response for a short summary. -/
inductive ApiError
  | inputTooShort
  | emptySummary
deriving DecidableEq

/-- The raw-text path of the `POST` handler, parameterised over the
summarisation core so that theorems can express that a rejected request never
depends on the core.  A request supplying only `text` (no `url`) is accepted
only when `body.text.trim().length >= 100`, in which case the trimmed text is
summarised; the result is rejected when `!summary || summary.trim().length <
50` (the `!summary` disjunct is subsumed, since the empty string trims to
length 0). -/
def handleTextRequestWith (core : List Char → List Char)
    (bodyText : List Char) : Except ApiError (List Char) :=
  if 100 ≤ (trim bodyText).length then
    if (trim (core (trim bodyText))).length < 50 then
      Except.error ApiError.emptySummary
    else Except.ok (core (trim bodyText))
  else Except.error ApiError.inputTooShort

/-- The raw-text path of `POST` with the real core (`summarizeText` at the
default `topN = 3`). -/
def handleTextRequest (sw : List (List Char)) (bodyText : List Char) :
    Except ApiError (List Char) :=
  handleTextRequestWith (fun t => summarizeText sw t 3) bodyText

/-- Modelled from the spec: the concrete English stopword list of the external
`stopword` package is configuration outside the repository source; the spec
names "the", "is" and "and" as examples and directs that the set be treated
as injected configuration.  This sample instantiation is used only to
instantiate witnesses and counterexamples; like the real list, it contains
neither the empty token nor the single letters used in those inputs. -/
def sampleStopwords : List (List Char) :=
  [['t', 'h', 'e'], ['i', 's'], ['a', 'n', 'd']]

/-- Concrete input " The is and . x. ": a stopword-only sentence (whose
tokenisation carries whitespace-induced empty-token artifacts) followed by a
sentence with a scoring token. -/
def exAllStopDoc : List Char :=
  [' ', 'T', 'h', 'e', ' ', 'i', 's', ' ', 'a', 'n', 'd', ' ', '.',
   ' ', 'x', '.', ' ']

/-- The first sentence of `exAllStopDoc`, consisting solely of stopwords. -/
def exStopOnlySentence : List Char :=
  [' ', 'T', 'h', 'e', ' ', 'i', 's', ' ', 'a', 'n', 'd', ' ', '.']

/-- The second sentence of `exAllStopDoc`, containing the token "x". -/
def exTokenSentence : List Char := [' ', 'x', '.']

/-- Concrete input " x. y." used to exhibit the empty-token artifact produced
by the leading space. -/
def exLeadingSpaceDoc : List Char := [' ', 'x', '.', ' ', 'y', '.']

/-- Concrete terminator-free input "hello world". -/
def exRunOn : List Char :=
  ['h', 'e', 'l', 'l', 'o', ' ', 'w', 'o', 'r', 'l', 'd']

/-- Concrete input "cat. dog." with two sentences. -/
def exTwoSentences : List Char :=
  ['c', 'a', 't', '.', ' ', 'd', 'o', 'g', '.']

/-- Concrete input "a.bc": one match, then a dropped trailing fragment. -/
def exFragDoc : List Char := ['a', '.', 'b', 'c']

/-- 99 characters of raw text: below the 100-character threshold. -/
def ex99 : List Char := List.replicate 99 'a'

/-- A 100-character document ("a. b." padded by a fragment of 95 "c"s) whose
summary "a. b." is shorter than 50 characters. -/
def exShortSummaryDoc : List Char :=
  ['a', '.', ' ', 'b', '.'] ++ List.replicate 95 'c'

/-! ## Helper lemmas -/

/-- `reduce` with `+` over a list equals the initial value plus the sum of the
mapped list. -/
theorem foldl_add_eq_sum (f : List Char → Nat) :
    ∀ (l : List (List Char)) (a : Nat),
      l.foldl (fun acc w => acc + f w) a = a + (l.map f).sum
  | [], a => by simp
  | w :: t, a => by
    simp [List.foldl_cons, foldl_add_eq_sum f t, Nat.add_assoc]

/-- Every member of a list of naturals is at most its sum. -/
theorem mem_le_sum : ∀ {l : List Nat} {x : Nat}, x ∈ l → x ≤ l.sum := by
  intro l
  induction l with
  | nil => intro x hx; cases hx
  | cons y t ih =>
    intro x hx
    rcases List.mem_cons.mp hx with h | h
    · subst h; exact Nat.le_add_right x t.sum
    · exact Nat.le_trans (ih h) (Nat.le_add_left t.sum y)

/-- Joining a one-element list with any separator returns the element. -/
theorem intercalate_singleton (x : List Char) :
    List.intercalate [' '] [x] = x := by
  simp [List.intercalate]

/-- Inserting an element commutes with filtering by an exact score: the
element lands in front of its score class (it is placed before the first
element of score at most its own, and elements before that point have a
strictly larger score). -/
theorem filter_orderedInsert_score (v : Nat) (x : List Char × Nat) :
    ∀ l : List (List Char × Nat),
      (List.orderedInsert ScoreGe x l).filter (fun p => p.2 == v)
        = if x.2 = v then x :: l.filter (fun p => p.2 == v)
          else l.filter (fun p => p.2 == v)
  | [] => by
    by_cases hx : x.2 = v <;>
      simp [List.orderedInsert, List.filter_cons, hx]
  | b :: t => by
    have ih := filter_orderedInsert_score v x t
    simp only [List.orderedInsert]
    by_cases hle : ScoreGe x b
    · rw [if_pos hle]
      by_cases hx : x.2 = v <;> by_cases hb : b.2 = v <;>
        simp [List.filter_cons, hx, hb]
    · rw [if_neg hle, List.filter_cons, ih]
      have hxb : x.2 < b.2 := Nat.lt_of_not_le hle
      by_cases hx : x.2 = v
      · have hb : ¬ b.2 = v := by omega
        simp [List.filter_cons, hx, hb]
      · simp [List.filter_cons, hx]

/-- Stability of the sort, phrased on score classes: filtering the sorted list
by any fixed score returns exactly the equally-scored elements in their
original order. -/
theorem filter_sortScored (v : Nat) :
    ∀ l : List (List Char × Nat),
      (sortScored l).filter (fun p => p.2 == v) = l.filter (fun p => p.2 == v)
  | [] => rfl
  | x :: t => by
    have ih := filter_sortScored v t
    show (List.orderedInsert ScoreGe x (sortScored t)).filter
        (fun p => p.2 == v) = _
    rw [filter_orderedInsert_score v x (sortScored t), List.filter_cons, ih]
    by_cases hx : x.2 = v <;> simp [hx]

/-- A document without any terminator character never produces a regex
match. -/
theorem segAux_noTerm :
    ∀ (l acc : List Char), (∀ c ∈ l, isTerm c = false) →
      segAux false acc l = []
  | [], _, _ => rfl
  | c :: rest, acc, h => by
    have hc : isTerm c = false := h c (List.mem_cons_self c rest)
    simp only [segAux, hc, Bool.false_eq_true, if_false, if_neg]
    exact segAux_noTerm rest (c :: acc) fun d hd => h d (List.mem_cons_of_mem c hd)

/-- Structure of the match list: the consumed input decomposes into a run of
skipped leading terminators, the concatenation of the matches, and a
terminator-free dropped trailing fragment.  When the scanner starts with a
nonempty accumulator nothing is skipped, and in the terminator phase the
result is never empty. -/
theorem segAux_decomp :
    ∀ (l : List Char) (phase : Bool) (acc : List Char),
      (phase = true → acc ≠ []) →
      (phase = false → ∀ c ∈ acc, isTerm c = false) →
      ∃ lead frag,
        acc.reverse ++ l = lead ++ (segAux phase acc l).flatten ++ frag
        ∧ (∀ c ∈ lead, isTerm c = true)
        ∧ (∀ c ∈ frag, isTerm c = false)
        ∧ (acc ≠ [] → lead = [])
        ∧ (phase = true → segAux phase acc l ≠ [])
  | [], phase, acc, _h1, h2 => by
    cases phase with
    | true =>
      refine ⟨[], [], ?_, by simp, by simp, fun _ => rfl, fun _ => by
        simp [segAux]⟩
      simp [segAux]
    | false =>
      refine ⟨[], acc.reverse, by simp [segAux], by simp, ?_, fun _ => rfl,
        by simp⟩
      intro c hc
      exact h2 rfl c (List.mem_reverse.mp hc)
  | c :: rest, phase, acc, h1, h2 => by
    by_cases hc : isTerm c = true
    · by_cases hacc : acc = []
      · subst hacc
        obtain ⟨lead, frag, heq, hlead, hfrag, -, -⟩ :=
          segAux_decomp rest false [] (by simp) (by simp)
        have hstep : segAux phase [] (c :: rest) = segAux false [] rest := by
          simp [segAux, hc]
        refine ⟨c :: lead, frag, ?_, ?_, hfrag, ?_, ?_⟩
        · simpa [hstep] using congrArg (c :: ·) heq
        · intro d hd
          rcases List.mem_cons.mp hd with h | h
          · subst h; exact hc
          · exact hlead d h
        · intro hne; exact absurd rfl hne
        · intro hp; exact absurd (h1 hp) (by simp)
      · obtain ⟨lead, frag, heq, -, hfrag, hlead2, hne⟩ :=
          segAux_decomp rest true (c :: acc) (fun _ => by simp) (by simp)
        have hlead0 : lead = [] := hlead2 (by simp)
        subst hlead0
        have hstep : segAux phase acc (c :: rest)
            = segAux true (c :: acc) rest := by
          simp [segAux, hc, List.isEmpty_iff, hacc]
        refine ⟨[], frag, ?_, by simp, hfrag, fun _ => rfl, fun _ => by
          rw [hstep]; exact hne rfl⟩
        rw [hstep]
        simpa [List.append_assoc] using heq
    · have hcf : isTerm c = false := by
        cases h : isTerm c with
        | true => exact absurd h hc
        | false => rfl
      cases phase with
      | true =>
        obtain ⟨lead, frag, heq, -, hfrag, hlead2, -⟩ :=
          segAux_decomp rest false [c] (by simp)
            (by intro _; intro d hd; rcases List.mem_cons.mp hd with h | h
                · subst h; exact hcf
                · cases h)
        have hlead0 : lead = [] := hlead2 (by simp)
        subst hlead0
        have hstep : segAux true acc (c :: rest)
            = acc.reverse :: segAux false [c] rest := by
          simp [segAux, hcf]
        refine ⟨[], frag, ?_, by simp, hfrag, fun _ => rfl, fun _ => by
          simp [hstep]⟩
        rw [hstep]
        simp only [List.flatten_cons, List.nil_append, List.append_assoc]
        simpa using congrArg (acc.reverse ++ ·) heq
      | false =>
        obtain ⟨lead, frag, heq, -, hfrag, hlead2, -⟩ :=
          segAux_decomp rest false (c :: acc) (by simp)
            (by intro _; intro d hd; rcases List.mem_cons.mp hd with h | h
                · subst h; exact hcf
                · exact h2 rfl d h)
        have hlead0 : lead = [] := hlead2 (by simp)
        subst hlead0
        have hstep : segAux false acc (c :: rest)
            = segAux false (c :: acc) rest := by
          simp [segAux, hcf]
        refine ⟨[], frag, ?_, by simp, hfrag, fun _ => rfl, by simp⟩
        rw [hstep]
        simpa [List.append_assoc] using heq

/-- Every emitted match ends with a terminator character. -/
theorem segAux_last :
    ∀ (l : List Char) (phase : Bool) (acc : List Char),
      (phase = true → ∃ d acc0, acc = d :: acc0 ∧ isTerm d = true) →
      ∀ s ∈ segAux phase acc l, ∃ t, s.getLast? = some t ∧ isTerm t = true
  | [], phase, acc, h => by
    cases phase with
    | true =>
      intro s hs
      obtain ⟨d, acc0, rfl, hd⟩ := h rfl
      simp only [segAux, if_true, List.mem_singleton] at hs
      subst hs
      exact ⟨d, by simp [List.getLast?_concat], hd⟩
    | false => intro s hs; simp [segAux] at hs
  | c :: rest, phase, acc, h => by
    by_cases hc : isTerm c = true
    · by_cases hacc : acc = []
      · subst hacc
        have hstep : segAux phase [] (c :: rest) = segAux false [] rest := by
          simp [segAux, hc]
        rw [hstep]
        exact segAux_last rest false [] (by simp)
      · have hstep : segAux phase acc (c :: rest)
            = segAux true (c :: acc) rest := by
          simp [segAux, hc, List.isEmpty_iff, hacc]
        rw [hstep]
        exact segAux_last rest true (c :: acc) (fun _ => ⟨c, acc, rfl, hc⟩)
    · have hcf : isTerm c = false := by
        cases h' : isTerm c with
        | true => exact absurd h' hc
        | false => rfl
      cases phase with
      | true =>
        have hstep : segAux true acc (c :: rest)
            = acc.reverse :: segAux false [c] rest := by
          simp [segAux, hcf]
        rw [hstep]
        intro s hs
        rcases List.mem_cons.mp hs with h' | h'
        · obtain ⟨d, acc0, rfl, hd⟩ := h rfl
          subst h'
          exact ⟨d, by simp [List.getLast?_concat], hd⟩
        · exact segAux_last rest false [c] (by simp) s h'
      | false =>
        have hstep : segAux false acc (c :: rest)
            = segAux false (c :: acc) rest := by
          simp [segAux, hcf]
        rw [hstep]
        exact segAux_last rest false (c :: acc) (by simp)

/-- `summarizeText` on the empty document returns the empty string, for every
stopword list and every `topN`. -/
theorem summarize_nil (sw : List (List Char)) (topN : Nat) :
    summarizeText sw [] topN = [] := by
  have hr : rankedOf sw [] = [(([] : List Char), scoreOf sw [] [])] := rfl
  cases topN with
  | zero => rfl
  | succ n =>
    show List.intercalate [' ']
        (((rankedOf sw []).take (n + 1)).map Prod.fst) = []
    rw [hr]
    simp [intercalate_singleton]

/-! ## Claims -/

/-- **C1** (code defect evidence).  The claim states that zero-length tokens
are dropped by normalization: an empty-string artifact contributes nothing to
the frequency table and adds nothing to any sentence's score.  On the document
" x. y." the leading space makes `split(/\s+/)` emit a leading empty token,
which is not a stopword and therefore survives `removeStopwords`: the
frequency table maps the empty token to 1, and the sentence " y." (whose own
tokenisation also starts with an empty token) scores 2, while the same sum
over its nonempty tokens alone is 1. -/
theorem empty_token_pollutes_frequency :
    freqOf sampleStopwords exLeadingSpaceDoc [] = 1
    ∧ [] ∈ allWordsOf sampleStopwords exLeadingSpaceDoc
    ∧ sentences exLeadingSpaceDoc = [[' ', 'x', '.'], [' ', 'y', '.']]
    ∧ scoreOf sampleStopwords exLeadingSpaceDoc [' ', 'y', '.'] = 2
    ∧ ((wordsOf sampleStopwords [' ', 'y', '.']).filter
          (fun w => !w.isEmpty)).foldl
        (fun a w => a + freqOf sampleStopwords exLeadingSpaceDoc w) 0 = 1 := by
  decide

/-- **C2**.  The (sentence, score) pairs are sorted by score descending by a
stable sort: the sorted list is pairwise score-non-increasing, and for every
score value the equally-scored pairs appear in exactly their original
(document) order — filtering the sorted list by any fixed score returns the
same list as filtering the unsorted one.  Taking the first `topN` entries
preserves this order, so equal-score sentences appear in the output in
document order. -/
theorem ranking_sorted_and_stable (sw : List (List Char)) (text : List Char) :
    List.Sorted ScoreGe (rankedOf sw text)
    ∧ ∀ v : Nat, (rankedOf sw text).filter (fun p => p.2 == v)
        = (scoredOf sw text).filter (fun p => p.2 == v) :=
  ⟨List.sorted_insertionSort ScoreGe (scoredOf sw text),
   fun v => filter_sortScored v (scoredOf sw text)⟩

/-- **C3** (counterexample).  On the empty document `summarizeText` does not
fail: it returns the ordinary empty string (the fallback makes the empty
document a single sentence whose trimmed text is empty). -/
theorem summarize_empty_returns_normally :
    summarizeText sampleStopwords [] 3 = [] := by decide

/-- **C3** (amended).  `summarizeText` has no failure path: on the empty
document it returns the empty string for every stopword list and every
`topN`; rejection of empty input instead happens at the service boundary,
whose 100-character minimum refuses the request before any core could run. -/
theorem summarize_empty_no_failure (sw : List (List Char)) (topN : Nat) :
    summarizeText sw [] topN = []
    ∧ ∀ core : List Char → List Char,
        handleTextRequestWith core [] = Except.error ApiError.inputTooShort :=
  ⟨summarize_nil sw topN, fun _ => rfl⟩

/-- **C7**.  `summarizeText` is deterministic: it is a pure function of the
stopword configuration, the document and `topN` — the embedding of the source
(whose sort comparator is consistent and whose steps are all effect-free) is a
total function, so two calls at equal arguments denote the same string. -/
theorem summarize_deterministic (sw : List (List Char)) (text : List Char)
    (topN : Nat) :
    summarizeText sw text topN = summarizeText sw text topN := rfl

/-- **C10**.  `summarizeText` is total over strings — the embedding returns a
result for every input without any failure case — and on the empty-string
document the result is the empty string. -/
theorem summarizeText_total (sw : List (List Char)) (text : List Char)
    (topN : Nat) :
    ∃ r : List Char, summarizeText sw text topN = r ∧ (text = [] → r = []) :=
  ⟨summarizeText sw text topN, rfl, fun h => by
    subst h; exact summarize_nil sw topN⟩

/-- Witness for `summarizeText_total` at the empty document. -/
theorem summarizeText_total_witness :
    ∃ r : List Char, summarizeText sampleStopwords [] 3 = r
      ∧ (([] : List Char) = [] → r = []) :=
  summarizeText_total sampleStopwords [] 3

/-- **C4**.  The summary is the single-space join of the selected sentences'
trimmed text, the selection has exactly `min topN #sentences` entries (so at
most `topN`, and all sentences when there are fewer than `topN`), it is listed
in score-descending order as sorted (not restored to document order), and when
the document has at most `topN` sentences every sentence's trimmed text
appears in the selection. -/
theorem summary_bounded_and_ordered (sw : List (List Char)) (text : List Char)
    (topN : Nat) :
    (topOf sw text topN).length = min topN (sentences text).length
    ∧ List.Sorted ScoreGe ((rankedOf sw text).take topN)
    ∧ summarizeText sw text topN = List.intercalate [' '] (topOf sw text topN)
    ∧ ((sentences text).length ≤ topN →
        ∀ s ∈ sentences text, trim s ∈ topOf sw text topN) := by
  have hlen : (rankedOf sw text).length = (sentences text).length := by
    simp [rankedOf, sortScored, List.length_insertionSort, scoredOf]
  refine ⟨?_, ?_, rfl, ?_⟩
  · simp [topOf, List.length_take, hlen]
  · exact List.Pairwise.sublist (List.take_sublist topN (rankedOf sw text))
      (List.sorted_insertionSort ScoreGe (scoredOf sw text))
  · intro hle s hs
    have hmem : (trim s, scoreOf sw text s) ∈ scoredOf sw text := by
      simp [scoredOf]
      exact ⟨s, hs, rfl, rfl⟩
    have hmem2 : (trim s, scoreOf sw text s) ∈ rankedOf sw text :=
      (List.mem_insertionSort ScoreGe).mpr hmem
    have htake : (rankedOf sw text).take topN = rankedOf sw text :=
      List.take_of_length_le (by omega)
    rw [topOf, htake]
    exact List.mem_map_of_mem Prod.fst hmem2

/-- Witness for `summary_bounded_and_ordered` on "cat. dog." with
`topN = 5`: both sentences appear. -/
theorem summary_bounded_and_ordered_witness :
    (topOf sampleStopwords exTwoSentences 5).length
        = min 5 (sentences exTwoSentences).length
    ∧ trim [' ', 'd', 'o', 'g', '.'] ∈ topOf sampleStopwords exTwoSentences 5 :=
  ⟨(summary_bounded_and_ordered sampleStopwords exTwoSentences 5).1,
   (summary_bounded_and_ordered sampleStopwords exTwoSentences 5).2.2.2
     (by decide) [' ', 'd', 'o', 'g', '.'] (by decide)⟩

/-- **C5** (code defect evidence).  The claim states that a sentence
consisting solely of stopwords scores 0 and is ranked no higher than any
sentence containing a token of positive frequency-table count.  The code
violates it, through the same empty-token defect as C1: on
" The is and . x. " the document's surrounding whitespace puts two empty
tokens in `allWords` (so the table maps the empty token to 2), the
stopword-only sentence " The is and ." tokenises to two empty artifacts and
scores 4, while " x." — which contains the positively counted token "x" —
scores only 3; the stopword-only sentence is ranked strictly first and is the
entire `topN = 1` summary. -/
theorem stopword_sentence_outranked :
    sentences exAllStopDoc = [exStopOnlySentence, exTokenSentence]
    ∧ (∀ w ∈ tokensOf exStopOnlySentence, w ≠ [] → w ∈ sampleStopwords)
    ∧ freqOf sampleStopwords exAllStopDoc [] = 2
    ∧ scoreOf sampleStopwords exAllStopDoc exStopOnlySentence = 4
    ∧ ['x'] ∈ wordsOf sampleStopwords exTokenSentence
    ∧ freqOf sampleStopwords exAllStopDoc ['x'] = 1
    ∧ scoreOf sampleStopwords exAllStopDoc exTokenSentence = 3
    ∧ rankedOf sampleStopwords exAllStopDoc
        = [(trim exStopOnlySentence, 4), (trim exTokenSentence, 3)]
    ∧ summarizeText sampleStopwords exAllStopDoc 1
        = trim exStopOnlySentence := by
  decide

/-- **C6**.  A non-empty document without any of the terminators `.`, `!`,
`?`, newline segments to exactly the whole document, and for `topN ≥ 1` the
summary is that document trimmed of surrounding whitespace. -/
theorem no_terminator_single_sentence (sw : List (List Char))
    (text : List Char) (topN : Nat) (_h0 : text ≠ [])
    (hterm : ∀ c ∈ text, isTerm c = false) (htop : 1 ≤ topN) :
    sentences text = [text] ∧ summarizeText sw text topN = trim text := by
  have hseg : segMatches text = [] := segAux_noTerm text [] hterm
  have hs : sentences text = [text] := by simp [sentences, hseg]
  refine ⟨hs, ?_⟩
  obtain ⟨n, rfl⟩ : ∃ n, topN = n + 1 := by
    cases topN with
    | zero => omega
    | succ n => exact ⟨n, rfl⟩
  have hr : rankedOf sw text = [(trim text, scoreOf sw text text)] := by
    simp [rankedOf, scoredOf, hs, sortScored, List.insertionSort,
      List.orderedInsert]
  show List.intercalate [' ']
      (((rankedOf sw text).take (n + 1)).map Prod.fst) = trim text
  rw [hr]
  simp [intercalate_singleton]

/-- Witness for `no_terminator_single_sentence` on "hello world". -/
theorem no_terminator_single_sentence_witness :
    sentences exRunOn = [exRunOn]
    ∧ summarizeText sampleStopwords exRunOn 3 = trim exRunOn :=
  no_terminator_single_sentence sampleStopwords exRunOn 3 (by decide)
    (by decide) (by decide)

/-- **C8**.  The service boundary of `POST` rejects a raw-text request whose
trimmed text is shorter than 100 characters with the bad-input error, and the
result of that rejection is the same for every core — the summarisation core
is never consulted; and when the accepted text's summary trims to fewer than
50 characters the handler answers the summary-error instead of returning
it. -/
theorem boundary_rejects :
    (∀ (core : List Char → List Char) (bodyText : List Char),
        (trim bodyText).length < 100 →
        handleTextRequestWith core bodyText
          = Except.error ApiError.inputTooShort)
    ∧ (∀ (sw : List (List Char)) (bodyText : List Char),
        100 ≤ (trim bodyText).length →
        (trim (summarizeText sw (trim bodyText) 3)).length < 50 →
        handleTextRequest sw bodyText = Except.error ApiError.emptySummary) := by
  constructor
  · intro core bodyText h
    rw [handleTextRequestWith, if_neg (by omega)]
  · intro sw bodyText h1 h2
    simp only [handleTextRequest, handleTextRequestWith, if_pos h1]
    rw [if_pos h2]

/-- Witness for `boundary_rejects`: a 99-character text is rejected as too
short whatever the core does, and the 100-character document whose summary is
"a. b." is rejected for its short summary. -/
theorem boundary_rejects_witness :
    handleTextRequestWith (fun t => t) ex99
        = Except.error ApiError.inputTooShort
    ∧ handleTextRequest sampleStopwords exShortSummaryDoc
        = Except.error ApiError.emptySummary :=
  ⟨boundary_rejects.1 (fun t => t) ex99 (by decide),
   boundary_rejects.2 sampleStopwords exShortSummaryDoc (by decide)
     (by decide)⟩

/-- **C9** (counterexample).  The document ".abc" contains the terminator `.`
yet the regex finds no match (no non-terminator is followed by a terminator),
so the fallback returns the whole document — including the characters after
the last terminator — as the single sentence, and they appear in the
summary. -/
theorem fallback_keeps_trailing_fragment :
    isTerm '.' = true
    ∧ '.' ∈ (['.', 'a', 'b', 'c'] : List Char)
    ∧ sentences ['.', 'a', 'b', 'c'] = [['.', 'a', 'b', 'c']]
    ∧ summarizeText sampleStopwords ['.', 'a', 'b', 'c'] 3
        = ['.', 'a', 'b', 'c'] := by
  decide

/-- **C9** (amended).  Whenever segmentation finds at least one match (so the
whole-document fallback is not taken), the trailing fragment after the last
terminator is excluded: the document splits into a run of skipped leading
terminators, the concatenation of the segmented sentences, and a
terminator-free trailing fragment, and every segmented sentence ends with a
terminator. -/
theorem segmentation_excludes_trailing_fragment (text : List Char)
    (h : segMatches text ≠ []) :
    ∃ lead frag,
      text = lead ++ (sentences text).flatten ++ frag
      ∧ (∀ c ∈ lead, isTerm c = true)
      ∧ (∀ c ∈ frag, isTerm c = false)
      ∧ ∀ s ∈ sentences text, ∃ t, s.getLast? = some t ∧ isTerm t = true := by
  have hs : sentences text = segMatches text := by
    rw [sentences, if_neg]
    simp [List.isEmpty_iff, h]
  obtain ⟨lead, frag, heq, hlead, hfrag, -, -⟩ :=
    segAux_decomp text false [] (by simp) (by simp)
  refine ⟨lead, frag, ?_, hlead, hfrag, ?_⟩
  · rw [hs]
    simpa using heq
  · rw [hs]
    exact segAux_last text false [] (by simp)

/-- Witness for `segmentation_excludes_trailing_fragment` on "a.bc". -/
theorem segmentation_excludes_trailing_fragment_witness :
    ∃ lead frag,
      exFragDoc = lead ++ (sentences exFragDoc).flatten ++ frag
      ∧ (∀ c ∈ lead, isTerm c = true)
      ∧ (∀ c ∈ frag, isTerm c = false)
      ∧ ∀ s ∈ sentences exFragDoc, ∃ t, s.getLast? = some t ∧ isTerm t = true :=
  segmentation_excludes_trailing_fragment exFragDoc (by decide)

-- Sanity checks of the embedding on concrete inputs.
example : splitWs [' ', 'a', ' ', ' ', 'b'] = [[], ['a'], ['b']] := by decide
example : splitWs [] = [[]] := by decide
example : tokensOf [' ', 'x', '.', ' ', 'y', '.'] = [[], ['x'], ['y']] := by
  decide
example : segMatches ['a', '.', 'b'] = [['a', '.']] := by decide
example : segMatches ['.', 'a', 'b'] = [] := by decide
example : sentences ['a', '.', '\n', 'b', '!'] =
    [['a', '.', '\n'], ['b', '!']] := by decide
example :
    summarizeText sampleStopwords
      ['T', 'h', 'e', '.', ' ', 'c', 'a', 't', '.'] 1 = ['c', 'a', 't', '.'] := by
  decide

end Summariser
